import Mathlib

/-!
Verification model of `src/charging-manager.ts` from the
actor-charge-manager-poc repository (the pay-per-event `ChargingManager`).

Modelling conventions, recorded once here:

* JavaScript numbers are modelled by `JsVal`: an exact rational together
  with the IEEE special values `Infinity`, `-Infinity` and `NaN`.  The
  arithmetic on finite values is exact rational arithmetic; the binary
  floating-point drift that the source defends against is strictly below
  the `toFixed(4)` rounding granularity the source applies everywhere,
  so the model agrees with the source on every value the source itself
  distinguishes.  `Number(x.toFixed(4))` is modelled by `jsToFixed4`
  (round half away from zero at 4 decimal places, the ECMA `toFixed`
  rounding rule; on `Infinity`/`NaN` the string round-trip is the
  identity).
* The source file contains duplicate draft variants of the same class:
  the fields `chargeState`/`ppeChargeInfo` and
  `maxTotalChargeUsd`/`maxCostPerRunUsd` are the same two fields under
  the two drafts' names, and `remainingGlobalCostUsd` is used as a
  getter (`this.remainingGlobalCostUsd` at lines 117/121/128).  The
  model identifies the renamed fields and treats
  `remainingGlobalCostUsd` as the pure getter it is used as.
* The tail of `charge` (source lines 174-185) calls
  `this.hasReachedChargeLimit()`, a member that no draft in the file
  defines, and then falls off the end of the method without returning a
  `ChargeResult`.  Evaluating the undefined member throws, so the model
  gives the success path the result `none` and records a trailing
  `throwUndefinedMethod` effect; `Actor.exit` below that line is
  unreachable.
* I/O collaborators (the charge HTTP endpoint, the metadata dataset,
  logging, the wall clock used for record timestamps) are represented
  by an explicit effect trace; the dataset/key-value plumbing of
  `initialize` and the record timestamp carry no information relevant
  to any claim and are omitted from the record structure.
-/

/-- A JavaScript number: an exact rational, `Infinity`, `-Infinity` or `NaN`. -/
inductive JsVal where
  | fin (q : ℚ)
  | inf
  | ninf
  | nan
deriving DecidableEq

/-- Whether a `JsVal` is a finite number. -/
def JsVal.isFin : JsVal → Bool
  | .fin _ => true
  | _ => false

/-- The rational carried by a finite `JsVal` (0 on the special values). -/
def qOf : JsVal → ℚ
  | .fin q => q
  | _ => 0

/-- JavaScript addition. -/
def jsAdd : JsVal → JsVal → JsVal
  | .nan, _ => .nan
  | _, .nan => .nan
  | .fin a, .fin b => .fin (a + b)
  | .inf, .ninf => .nan
  | .ninf, .inf => .nan
  | .inf, _ => .inf
  | _, .inf => .inf
  | .ninf, _ => .ninf
  | _, .ninf => .ninf

/-- JavaScript negation. -/
def jsNeg : JsVal → JsVal
  | .fin a => .fin (-a)
  | .inf => .ninf
  | .ninf => .inf
  | .nan => .nan

/-- JavaScript subtraction. -/
def jsSub (a b : JsVal) : JsVal := jsAdd a (jsNeg b)

/-- JavaScript multiplication. -/
def jsMul : JsVal → JsVal → JsVal
  | .nan, _ => .nan
  | _, .nan => .nan
  | .fin a, .fin b => .fin (a * b)
  | .inf, .fin b => if b = 0 then .nan else if 0 < b then .inf else .ninf
  | .fin a, .inf => if a = 0 then .nan else if 0 < a then .inf else .ninf
  | .ninf, .fin b => if b = 0 then .nan else if 0 < b then .ninf else .inf
  | .fin a, .ninf => if a = 0 then .nan else if 0 < a then .ninf else .inf
  | .inf, .inf => .inf
  | .ninf, .ninf => .inf
  | .inf, .ninf => .ninf
  | .ninf, .inf => .ninf

/-- JavaScript division (division by zero yields a signed infinity or `NaN`). -/
def jsDiv : JsVal → JsVal → JsVal
  | .nan, _ => .nan
  | _, .nan => .nan
  | .fin a, .fin b =>
      if b = 0 then (if a = 0 then .nan else if 0 < a then .inf else .ninf)
      else .fin (a / b)
  | .fin _, .inf => .fin 0
  | .fin _, .ninf => .fin 0
  | .inf, .fin b => if 0 ≤ b then .inf else .ninf
  | .ninf, .fin b => if 0 ≤ b then .ninf else .inf
  | .inf, .inf => .nan
  | .inf, .ninf => .nan
  | .ninf, .inf => .nan
  | .ninf, .ninf => .nan

/-- JavaScript `<=` (false whenever either side is `NaN`). -/
def jsLe : JsVal → JsVal → Bool
  | .nan, _ => false
  | _, .nan => false
  | .fin a, .fin b => decide (a ≤ b)
  | .ninf, _ => true
  | _, .inf => true
  | .inf, _ => false
  | .fin _, .ninf => false

/-- JavaScript `<` (false whenever either side is `NaN`). -/
def jsLt : JsVal → JsVal → Bool
  | .nan, _ => false
  | _, .nan => false
  | .fin a, .fin b => decide (a < b)
  | .ninf, .ninf => false
  | .ninf, _ => true
  | .inf, _ => false
  | .fin _, .inf => true
  | .fin _, .ninf => false

/-- JavaScript `Math.min` (`NaN` if either argument is `NaN`). -/
def jsMin (a b : JsVal) : JsVal :=
  match a, b with
  | .nan, _ => .nan
  | _, .nan => .nan
  | x, y => if jsLe x y then x else y

/-- JavaScript truthiness of a number (`0` and `NaN` are falsy). -/
def jsTruthy : JsVal → Bool
  | .fin q => decide (q ≠ 0)
  | .nan => false
  | .inf => true
  | .ninf => true

/-- Round a rational to the nearest multiple of `1/s`, ties away from zero:
the ECMA `toFixed` rounding rule over exact rationals. -/
def qRoundTo (s : ℚ) (q : ℚ) : ℚ :=
  if q < 0 then -(((⌊(-q) * s + 1/2⌋ : ℤ) : ℚ) / s) else ((⌊q * s + 1/2⌋ : ℤ) : ℚ) / s

/-- Rounding to 4 decimal places, as in `Number(x.toFixed(4))` on a finite value. -/
def round4 (q : ℚ) : ℚ := qRoundTo 10000 q

/-- Rounding to 6 decimal places (the precision the specification claims). -/
def round6 (q : ℚ) : ℚ := qRoundTo 1000000 q

/-- Half of the rounding granularity of `round4`: `round4` moves a value by at
most `tol4 = 1/20000`. -/
def tol4 : ℚ := 1 / 20000

/-- `Number(x.toFixed(4))`: rounding on finite values, identity on the special
values (their strings round-trip through `Number`). -/
def jsToFixed4 : JsVal → JsVal
  | .fin q => .fin (round4 q)
  | v => v

/-- JavaScript `Math.floor`. -/
def jsFloor : JsVal → JsVal
  | .fin q => .fin ((⌊q⌋ : ℤ) : ℚ)
  | v => v

/-- Iteration count of the JavaScript loop `for (let i = 0; i < c; i++)` for a
bound `c`: `⌈c⌉` when `c` is finite and positive, `0` on `NaN`, `-Infinity`
and nonpositive bounds.  (On `Infinity` the source loop would not terminate;
no charge can produce an infinite `chargeableCount` from a finite request, and
no claim exercises that bound.) -/
def jsLoopIter : JsVal → ℕ
  | .fin q => (⌈q⌉).toNat
  | _ => 0

/-- One entry of the manager's `ChargeState` (source line 52). -/
structure EventState where
  chargeCount : JsVal
  eventPriceUsd : JsVal
  eventTitle : String
deriving DecidableEq

/-- The `ChargingManager` state: the budget option and the per-event charge
state (an association list with the insertion order of the JS object;
`ppeChargeInfo`/`maxCostPerRunUsd` in the other draft's naming). -/
structure ChargingManager where
  maxTotalChargeUsd : JsVal
  chargeState : List (String × EventState)
deriving DecidableEq

/-- `this.chargeState[event]`: property lookup on the charge-state object. -/
def lookupEvent (m : ChargingManager) (event : String) : Option EventState :=
  (m.chargeState.find? (fun en => en.1 == event)).map Prod.snd

/-- The price used by `countRemainingChargeCount` and `limitChargeEvents`:
`this.ppeChargeInfo[event]?.eventPriceUsd ?? 0` (source lines 121, 131, 134). -/
def priceOr0 (m : ChargingManager) (event : String) : JsVal :=
  ((lookupEvent m event).map EventState.eventPriceUsd).getD (.fin 0)

/-- The fold inside `remainingGlobalCostUsd` (source lines 194-197): the sum
over all entries of `Number((chargeCount * eventPriceUsd).toFixed(4))`. -/
def spentFoldJs (m : ChargingManager) : JsVal :=
  m.chargeState.foldl
    (fun acc en => jsAdd acc (jsToFixed4 (jsMul en.2.chargeCount en.2.eventPriceUsd)))
    (.fin 0)

/-- `remainingGlobalCostUsd` (source lines 191-199): how much more money PPE
events can charge before reaching the max cost per run.  The ternary tests the
truthiness of the budget; the result of the subtraction is rounded to 4
decimal places. -/
def remainingGlobalCostUsd (m : ChargingManager) : JsVal :=
  if jsTruthy m.maxTotalChargeUsd then
    jsToFixed4 (jsSub m.maxTotalChargeUsd (spentFoldJs m))
  else .inf

/-- `countRemainingChargeCount` (source lines 116-122): how many events of the
given type can still be charged for.  Rounds the quotient to 4 decimal places
before flooring. -/
def countRemainingChargeCount (m : ChargingManager) (event : String) : JsVal :=
  match remainingGlobalCostUsd m with
  | .inf => .inf
  | r => jsFloor (jsToFixed4 (jsDiv r (priceOr0 m event)))

/-- The pair threaded through the `limitChargeEvents` loop: the events kept so
far and the running `wouldBeRemainingPrice` (source lines 128-137). -/
def limitLoopPair (m : ChargingManager) : JsVal → List String → List String × JsVal
  | wouldBe, [] => ([], wouldBe)
  | wouldBe, e :: rest =>
      if jsLt wouldBe (priceOr0 m e) then ([], wouldBe)
      else
        let next := limitLoopPair m (jsToFixed4 (jsSub wouldBe (priceOr0 m e))) rest
        (e :: next.1, next.2)

/-- The snapshot `limitChargeEvents` starts from (source line 128).  The
`countScheduled` branch reads `this.remainingScheduledCostUsd`, a member no
draft in the file defines; the resulting JS `undefined` behaves as `NaN` in
the loop's comparison and subtraction, which is how the model renders it. -/
def limitSnapshot (m : ChargingManager) (countScheduled : Bool) : JsVal :=
  if countScheduled then .nan else remainingGlobalCostUsd m

/-- `limitChargeEvents` (source lines 127-139): cut a sequence of events off
at the point where the limit is reached. -/
def limitChargeEvents (m : ChargingManager) (events : List String)
    (countScheduled : Bool) : List String :=
  (limitLoopPair m (limitSnapshot m countScheduled) events).1

/-- The three outcome strings of `ChargeResult` (source line 56). -/
inductive ChargeOutcome where
  | event_not_registered
  | charge_limit_reached
  | charge_successful
deriving DecidableEq

/-- `ChargeResult` (source lines 54-57).  Note it has exactly these two
fields; no `eventChargeLimitReached` field is declared. -/
structure ChargeResult where
  chargedCount : JsVal
  outcome : ChargeOutcome
deriving DecidableEq

/-- One metadata record pushed to the metadata dataset (source lines 164-170).
The timestamp is taken from the wall clock and carries no claim-relevant
information; `metadata` is `metadata[i]`, which is absent (`undefined`) when
`i` runs past the supplied array. -/
structure ChargeRecord where
  eventId : String
  eventTitle : String
  eventPriceUsd : JsVal
  metadata : Option Unit
deriving DecidableEq

/-- The observable side effects of one `charge` call, in evaluation order. -/
inductive Effect where
  | chargeRequest (event : String) (count : JsVal)
  | updateChargeCount (event : String) (count : JsVal)
  | pushData (records : List ChargeRecord)
  | throwUndefinedMethod (name : String)
deriving DecidableEq

/-- Is the effect the outbound charge notification? -/
def isChargeRequestEffect : Effect → Bool
  | .chargeRequest _ _ => true
  | _ => false

/-- Is the effect the in-memory charge-count update? -/
def isUpdateEffect : Effect → Bool
  | .updateChargeCount _ _ => true
  | _ => false

/-- `this.chargeState[event].chargeCount += chargeableCount` (source line
160). -/
def updateChargeCountInState (m : ChargingManager) (event : String)
    (c : JsVal) : ChargingManager :=
  { m with
    chargeState := m.chargeState.map fun en =>
      if en.1 = event then (en.1, { en.2 with chargeCount := jsAdd en.2.chargeCount c })
      else en }

/-- The full observable behaviour of one `charge` call: the state after the
call, the effect trace, and the returned `ChargeResult` (`none` when the call
returns without producing one). -/
structure ChargeStep where
  state : ChargingManager
  effects : List Effect
  result : Option ChargeResult
deriving DecidableEq

/-- `charge` (source lines 144-186).  `home` is `Actor.isAtHome()` (the
notification is only sent when running on the platform).  The requested count
and the metadata array are the two remaining parameters.  On the success path
the source updates the in-memory count *after* firing the notification,
pushes one record per charged unit, and then evaluates the undefined member
`hasReachedChargeLimit` and falls off the end without returning a result. -/
def charge (home : Bool) (m : ChargingManager) (event : String)
    (requestedChargeCount : JsVal) (metadata : List Unit) : ChargeStep :=
  match lookupEvent m event with
  | none => ⟨m, [], some ⟨.fin 0, .event_not_registered⟩⟩
  | some st =>
      let remainingChargeCount := countRemainingChargeCount m event
      if jsLe remainingChargeCount (.fin 0) then
        ⟨m, [], some ⟨.fin 0, .charge_limit_reached⟩⟩
      else
        let chargeableCount := jsMin requestedChargeCount remainingChargeCount
        let records := (List.range (jsLoopIter chargeableCount)).map fun i =>
          ⟨event, st.eventTitle, st.eventPriceUsd, metadata[i]?⟩
        ⟨updateChargeCountInState m event chargeableCount,
          (if home then [Effect.chargeRequest event chargeableCount] else []) ++
            [Effect.updateChargeCount event chargeableCount,
             Effect.pushData records,
             Effect.throwUndefinedMethod "hasReachedChargeLimit"],
          none⟩

/-- The pricing entry for one event kind in the run record
(`actorChargeEvents` values, source lines 31-35). -/
structure PricingEventInfo where
  eventTitle : String
  eventDescription : String
  eventPriceUsd : ℚ
deriving DecidableEq

/-- The parts of the run record that `initialize` reads (source lines 44-50):
the optional pricing schedule, the optional prior-charge-count map, and the
optional `maxTotalChargeUsd` run option. -/
structure RunInfo where
  pricingInfo : Option (List (String × PricingEventInfo))
  chargedEventCounts : Option (List (String × ℚ))
  maxTotalChargeUsd : Option ℚ
deriving DecidableEq

/-- `initialize` together with the private constructor (source lines 74-80 and
87-111), restricted to the ledger state (the metadata-dataset plumbing stores
no claim-relevant state).  The charge state is built only when *both*
`chargedEventCounts` and the pricing info are present; each entry is seeded
with `chargedEventCounts[eventId] ?? 0`.  The constructor keeps the default
budget `Infinity` unless the passed option is truthy (so absent and `0` both
mean unbounded). -/
def initManagerFromRunInfo (runInfo : RunInfo) : ChargingManager :=
  { maxTotalChargeUsd :=
      match runInfo.maxTotalChargeUsd with
      | some v => if v = 0 then .inf else .fin v
      | none => .inf,
    chargeState :=
      match runInfo.chargedEventCounts, runInfo.pricingInfo with
      | some counts, some events =>
          events.map fun en =>
            (en.1,
             { chargeCount := .fin (((counts.find? (fun c => c.1 == en.1)).map Prod.snd).getD 0),
               eventPriceUsd := .fin en.2.eventPriceUsd,
               eventTitle := en.2.eventTitle })
      | _, _ => [] }

/-- Arguments of one `charge` call in a call sequence. -/
structure CallArgs where
  event : String
  requested : ℚ
  metadata : List Unit
deriving DecidableEq

/-- The charge count a call committed to the in-memory state: the count of the
trace's `updateChargeCount` effect (`0` when the call returned early without
charging). -/
def committedCount (effs : List Effect) : JsVal :=
  (effs.findSome? fun e =>
    match e with
    | .updateChargeCount _ c => some c
    | _ => none).getD (.fin 0)

/-- Run a sequence of `charge` calls, accumulating the sum over the calls of
the committed charge count times the event's unit price (the money the ledger
charged for). -/
def runCalls (home : Bool) : ChargingManager → List CallArgs → ChargingManager × ℚ
  | m, [] => (m, 0)
  | m, c :: rest =>
      let step := charge home m c.event (.fin c.requested) c.metadata
      let next := runCalls home step.state rest
      (next.1, qOf (committedCount step.effects) * qOf (priceOr0 m c.event) + next.2)

/-- The exact money value of the per-event subtotals as the source records
them: `Number((chargeCount * eventPriceUsd).toFixed(4))`, summed. -/
def recordedSpend (m : ChargingManager) : ℚ :=
  (m.chargeState.map fun en => round4 (qOf en.2.chargeCount * qOf en.2.eventPriceUsd)).sum

/-- The exact total money committed in the charge state (no rounding). -/
def trueSpend (m : ChargingManager) : ℚ :=
  (m.chargeState.map fun en => qOf en.2.chargeCount * qOf en.2.eventPriceUsd).sum

/-- The per-key prices of the charge state (used to state that `charge` never
changes registration or prices). -/
def pricesView (m : ChargingManager) : List (String × JsVal) :=
  m.chargeState.map fun en => (en.1, en.2.eventPriceUsd)

/-- Well-formedness of one charge-state entry, with `P` an upper bound on the
unit prices: finite nonnegative count, finite positive price at most `P`. -/
def EntryWF (P : ℚ) (en : String × EventState) : Prop :=
  en.2.chargeCount.isFin = true ∧ 0 ≤ qOf en.2.chargeCount ∧
  en.2.eventPriceUsd.isFin = true ∧ 0 < qOf en.2.eventPriceUsd ∧
  qOf en.2.eventPriceUsd ≤ P

/-- Well-formedness of a manager state: a finite positive budget, distinct
event keys (JS object keys are unique), and well-formed entries. -/
def StateWF (P : ℚ) (m : ChargingManager) : Prop :=
  m.maxTotalChargeUsd.isFin = true ∧ 0 < qOf m.maxTotalChargeUsd ∧
  (m.chargeState.map Prod.fst).Nodup ∧ ∀ en ∈ m.chargeState, EntryWF P en

/-- All counts and prices of the charge state are finite numbers. -/
def EntriesFin (m : ChargingManager) : Prop :=
  ∀ en ∈ m.chargeState, en.2.chargeCount.isFin = true ∧ en.2.eventPriceUsd.isFin = true

instance (P : ℚ) (en : String × EventState) : Decidable (EntryWF P en) := by
  unfold EntryWF; infer_instance

instance (P : ℚ) (m : ChargingManager) : Decidable (StateWF P m) := by
  unfold StateWF; infer_instance

instance (m : ChargingManager) : Decidable (EntriesFin m) := by
  unfold EntriesFin; infer_instance

/-! ### Concrete run fixtures used by the claims

The managers below are concrete instances of the model used to evaluate the
claims on specific inputs; prices and budgets are exact rationals. -/

/-- Scenario A of the specification: one event priced 1 USD per unit, budget
5 USD, no prior charges. -/
def scenarioAManager : ChargingManager :=
  initManagerFromRunInfo ⟨some [("r", ⟨"t", "d", 1⟩)], some [], some 5⟩

/-- One event priced 1.00004 USD per unit under a 2.00004 USD budget: the
4-decimal rounding of the per-event subtotal understates the money already
spent, so a second unit is still deemed affordable. -/
def overspendManager : ChargingManager :=
  initManagerFromRunInfo ⟨some [("r", ⟨"t", "d", 25001/25000⟩)], some [], some (50001/25000)⟩

/-- Two unit requests against `overspendManager`. -/
def overspendCalls : List CallArgs := [⟨"r", 1, [()]⟩, ⟨"r", 1, [()]⟩]

/-- One event priced 2 USD per unit, budget 5 USD, 2 units already charged:
the remaining budget (1 USD) no longer affords a unit. -/
def exhaustedManager : ChargingManager :=
  ⟨.fin 5, [("r", ⟨.fin 2, .fin 2, "t"⟩)]⟩

/-- A 2-USD event that has consumed the whole 4 USD budget next to a
zero-priced registered event. -/
def zeroPriceSiblingManager : ChargingManager :=
  ⟨.fin 4, [("a", ⟨.fin 2, .fin 2, "t"⟩), ("z", ⟨.fin 0, .fin 0, "t"⟩)]⟩

/-- A run record with pricing info for one kind but no prior-charge-count
map. -/
def pricingOnlyRunInfo : RunInfo := ⟨some [("r", ⟨"t", "d", 1⟩)], none, some 5⟩

/-- Scenario E of the specification: prior count 3 on a 1-USD event under a
5-USD budget. -/
def scenarioERunInfo : RunInfo := ⟨some [("r", ⟨"t", "d", 1⟩)], some [("r", 3)], some 5⟩

/-- One unit of a 0.00003-USD event against a 5 USD budget: the exact
remaining budget is 4.99997, which 6-decimal rounding preserves and 4-decimal
rounding does not. -/
def tinyPriceManager : ChargingManager :=
  ⟨.fin 5, [("r", ⟨.fin 1, .fin (3/100000), "t"⟩)]⟩

/-- A manager with an empty pricing schedule (every event unregistered). -/
def noEventsManager : ChargingManager := ⟨.fin 5, []⟩

/-- One 2-USD event with a 5-USD budget and no charges yet. -/
def twoUsdManager : ChargingManager := ⟨.fin 5, [("r", ⟨.fin 0, .fin 2, "t"⟩)]⟩

/-- A zero-priced registered event with money left in the budget. -/
def zeroPriceRichManager : ChargingManager := ⟨.fin 5, [("z", ⟨.fin 3, .fin 0, "t"⟩)]⟩

/-- A zero-priced registered event with the remaining budget exactly 0. -/
def zeroPriceBrokeManager : ChargingManager :=
  ⟨.fin 5, [("a", ⟨.fin 5, .fin 1, "t"⟩), ("z", ⟨.fin 0, .fin 0, "t"⟩)]⟩

/-! ### Basic facts about the JavaScript value model -/

theorem JsVal.isFin_iff {v : JsVal} : v.isFin = true ↔ ∃ q : ℚ, v = .fin q := by
  cases v <;> simp [JsVal.isFin]

@[simp] theorem qOf_fin (q : ℚ) : qOf (.fin q) = q := rfl

@[simp] theorem jsAdd_fin_fin (a b : ℚ) : jsAdd (.fin a) (.fin b) = .fin (a + b) := rfl

@[simp] theorem jsAdd_nan_right (v : JsVal) : jsAdd v .nan = .nan := by
  cases v <;> rfl

@[simp] theorem jsMul_fin_fin (a b : ℚ) : jsMul (.fin a) (.fin b) = .fin (a * b) := rfl

@[simp] theorem jsSub_fin_fin (a b : ℚ) : jsSub (.fin a) (.fin b) = .fin (a - b) := by
  simp [jsSub, jsNeg, sub_eq_add_neg]

@[simp] theorem jsToFixed4_fin (q : ℚ) : jsToFixed4 (.fin q) = .fin (round4 q) := rfl

@[simp] theorem jsFloor_fin (q : ℚ) : jsFloor (.fin q) = .fin ((⌊q⌋ : ℤ) : ℚ) := rfl

theorem jsDiv_fin_fin {b : ℚ} (a : ℚ) (hb : b ≠ 0) : jsDiv (.fin a) (.fin b) = .fin (a / b) := by
  simp [jsDiv, hb]

@[simp] theorem jsLe_fin_fin (a b : ℚ) : jsLe (.fin a) (.fin b) = decide (a ≤ b) := rfl

theorem jsLe_fin_fin_iff {a b : ℚ} : jsLe (.fin a) (.fin b) = true ↔ a ≤ b := by
  simp

@[simp] theorem jsLe_fin_inf (a : ℚ) : jsLe (.fin a) .inf = true := rfl

@[simp] theorem jsLe_inf_fin (a : ℚ) : jsLe .inf (.fin a) = false := rfl

@[simp] theorem jsLe_nan_left (v : JsVal) : jsLe .nan v = false := by
  cases v <;> rfl

@[simp] theorem jsMin_fin_fin (a b : ℚ) : jsMin (.fin a) (.fin b) = .fin (min a b) := by
  simp only [jsMin, jsLe_fin_fin]
  rcases le_or_lt a b with h | h
  · rw [if_pos (by simpa using h), min_eq_left h]
  · rw [if_neg (by simpa using h.not_le), min_eq_right h.le]

@[simp] theorem jsMin_fin_inf (a : ℚ) : jsMin (.fin a) .inf = .fin a := rfl

@[simp] theorem jsMin_fin_nan (a : ℚ) : jsMin (.fin a) .nan = .nan := rfl

@[simp] theorem jsTruthy_fin (q : ℚ) : jsTruthy (.fin q) = decide (q ≠ 0) := rfl

/-! ### Facts about the `toFixed` rounding -/

theorem round4_le (q : ℚ) : round4 q ≤ q + tol4 := by
  unfold round4 qRoundTo tol4
  split_ifs with h
  · have h1 : (-q) * 10000 + 1/2 - 1 < ((⌊(-q) * 10000 + 1/2⌋ : ℤ) : ℚ) :=
      Int.sub_one_lt_floor _
    rw [neg_le, le_div_iff (by norm_num : (0:ℚ) < 10000)]
    linarith
  · have h1 : ((⌊q * 10000 + 1/2⌋ : ℤ) : ℚ) ≤ q * 10000 + 1/2 := Int.floor_le _
    rw [div_le_iff (by norm_num : (0:ℚ) < 10000)]
    linarith

theorem le_round4 (q : ℚ) : q - tol4 ≤ round4 q := by
  unfold round4 qRoundTo tol4
  split_ifs with h
  · have h1 : ((⌊(-q) * 10000 + 1/2⌋ : ℤ) : ℚ) ≤ (-q) * 10000 + 1/2 := Int.floor_le _
    have h2 : ((⌊(-q) * 10000 + 1/2⌋ : ℤ) : ℚ) / 10000 ≤ -q + 1/20000 := by
      rw [div_le_iff (by norm_num : (0:ℚ) < 10000)]
      linarith
    linarith
  · have h1 : q * 10000 + 1/2 - 1 < ((⌊q * 10000 + 1/2⌋ : ℤ) : ℚ) := Int.sub_one_lt_floor _
    have h2 : q - 1/20000 ≤ ((⌊q * 10000 + 1/2⌋ : ℤ) : ℚ) / 10000 := by
      rw [le_div_iff (by norm_num : (0:ℚ) < 10000)]
      linarith
    linarith

theorem round4_nonneg {q : ℚ} (h : 0 ≤ q) : 0 ≤ round4 q := by
  unfold round4 qRoundTo
  rw [if_neg (not_lt.mpr h)]
  have h1 : (0 : ℤ) ≤ ⌊q * 10000 + 1/2⌋ := by
    rw [Int.le_floor]
    push_cast
    linarith
  exact div_nonneg (by exact_mod_cast h1) (by norm_num)

theorem round4_mono {a b : ℚ} (h : a ≤ b) : round4 a ≤ round4 b := by
  unfold round4 qRoundTo
  split_ifs with ha hb hb
  · have hfl : ⌊(-b) * 10000 + 1/2⌋ ≤ ⌊(-a) * 10000 + 1/2⌋ :=
      Int.floor_le_floor (by linarith)
    have h2 : ((⌊(-b) * 10000 + 1/2⌋ : ℤ) : ℚ) / 10000
        ≤ ((⌊(-a) * 10000 + 1/2⌋ : ℤ) : ℚ) / 10000 :=
      (div_le_div_right (by norm_num)).mpr (by exact_mod_cast hfl)
    exact neg_le_neg h2
  · have ha0 : (0 : ℤ) ≤ ⌊(-a) * 10000 + 1/2⌋ := by
      rw [Int.le_floor]; push_cast; linarith
    have hb0 : (0 : ℤ) ≤ ⌊b * 10000 + 1/2⌋ := by
      rw [Int.le_floor]; push_cast; linarith
    have l1 : -(((⌊(-a) * 10000 + 1/2⌋ : ℤ) : ℚ) / 10000) ≤ 0 :=
      neg_nonpos.mpr (div_nonneg (by exact_mod_cast ha0) (by norm_num))
    have l2 : (0 : ℚ) ≤ ((⌊b * 10000 + 1/2⌋ : ℤ) : ℚ) / 10000 :=
      div_nonneg (by exact_mod_cast hb0) (by norm_num)
    linarith
  · exact (ha (h.trans_lt hb)).elim
  · have hfl : ⌊a * 10000 + 1/2⌋ ≤ ⌊b * 10000 + 1/2⌋ :=
      Int.floor_le_floor (by linarith)
    exact (div_le_div_right (by norm_num)).mpr (by exact_mod_cast hfl)

theorem sum_round4_ge (l : List ℚ) :
    l.sum - l.length * tol4 ≤ (l.map round4).sum := by
  induction l with
  | nil => simp
  | cons x t ih =>
      have hx := le_round4 x
      simp only [List.sum_cons, List.map_cons, List.length_cons]
      push_cast
      linarith

/-! ### Evaluating the model on finite well-formed states -/

theorem spentFold_go (l : List (String × EventState))
    (h : ∀ en ∈ l, en.2.chargeCount.isFin = true ∧ en.2.eventPriceUsd.isFin = true) :
    ∀ a : ℚ,
      l.foldl (fun acc en => jsAdd acc (jsToFixed4 (jsMul en.2.chargeCount en.2.eventPriceUsd)))
        (.fin a)
      = .fin (a + (l.map fun en => round4 (qOf en.2.chargeCount * qOf en.2.eventPriceUsd)).sum) := by
  induction l with
  | nil => simp
  | cons en t ih =>
      intro a
      obtain ⟨hc, hp⟩ := h en (List.mem_cons_self _ _)
      obtain ⟨c, hc⟩ := JsVal.isFin_iff.mp hc
      obtain ⟨p, hp⟩ := JsVal.isFin_iff.mp hp
      simp only [List.foldl_cons, hc, hp, jsMul_fin_fin, jsToFixed4_fin, jsAdd_fin_fin,
        List.map_cons, List.sum_cons, qOf_fin]
      rw [ih (fun x hx => h x (List.mem_cons_of_mem _ hx))]
      rw [add_assoc]

theorem spentFoldJs_eq (m : ChargingManager) (h : EntriesFin m) :
    spentFoldJs m = .fin (recordedSpend m) := by
  unfold spentFoldJs recordedSpend
  rw [spentFold_go _ h 0, zero_add]

theorem remainingGlobalCostUsd_eq (m : ChargingManager) (mx : ℚ) (h : EntriesFin m)
    (hmx : m.maxTotalChargeUsd = .fin mx) (h0 : mx ≠ 0) :
    remainingGlobalCostUsd m = .fin (round4 (mx - recordedSpend m)) := by
  unfold remainingGlobalCostUsd
  rw [spentFoldJs_eq m h, hmx]
  simp [h0]

theorem countRemainingChargeCount_eq (m : ChargingManager) (mx : ℚ) (e : String)
    (st : EventState) (p : ℚ) (hE : EntriesFin m) (hmx : m.maxTotalChargeUsd = .fin mx)
    (h0 : mx ≠ 0) (hreg : lookupEvent m e = some st) (hp : st.eventPriceUsd = .fin p)
    (hp0 : p ≠ 0) :
    countRemainingChargeCount m e
      = .fin ((⌊round4 (round4 (mx - recordedSpend m) / p)⌋ : ℤ) : ℚ) := by
  unfold countRemainingChargeCount priceOr0
  rw [remainingGlobalCostUsd_eq m mx hE hmx h0, hreg]
  simp [jsDiv_fin_fin _ hp0, hp]

/-! ### The state update of a successful charge -/

theorem find?_update_aux (l : List (String × EventState)) (e x : String) (c : JsVal) :
    ((l.map fun en =>
        if en.1 = e then (en.1, { en.2 with chargeCount := jsAdd en.2.chargeCount c }) else en).find?
        (fun en => en.1 == x))
      = (l.find? (fun en => en.1 == x)).map fun en =>
          if en.1 = e then (en.1, { en.2 with chargeCount := jsAdd en.2.chargeCount c }) else en := by
  induction l with
  | nil => rfl
  | cons en t ih =>
      by_cases hx : en.1 = x
      · subst hx
        by_cases he : en.1 = e <;> simp [List.find?_cons, he]
      · by_cases he : en.1 = e
        · have hb : (e == x) = false := by rw [← he]; simpa using hx
          simp [List.find?_cons, he, hb, ih]
        · have hb : (en.1 == x) = false := by simpa using hx
          simp [List.find?_cons, he, hb, ih]

theorem lookupEvent_update (m : ChargingManager) (e x : String) (c : JsVal) :
    lookupEvent (updateChargeCountInState m e c) x
      = (lookupEvent m x).map fun st =>
          if x = e then { st with chargeCount := jsAdd st.chargeCount c } else st := by
  unfold lookupEvent updateChargeCountInState
  rw [find?_update_aux]
  cases hfind : m.chargeState.find? (fun en => en.1 == x) with
  | none => rfl
  | some en =>
      have hx : en.1 = x := by simpa using List.find?_some hfind
      by_cases he : x = e
      · simp [hx, he]
      · simp [hx, he]

theorem lookupEvent_update_self (m : ChargingManager) (e : String) (c : JsVal) :
    lookupEvent (updateChargeCountInState m e c) e
      = (lookupEvent m e).map fun st => { st with chargeCount := jsAdd st.chargeCount c } := by
  rw [lookupEvent_update]
  simp

theorem priceOr0_update (m : ChargingManager) (e x : String) (c : JsVal) :
    priceOr0 (updateChargeCountInState m e c) x = priceOr0 m x := by
  unfold priceOr0
  rw [lookupEvent_update]
  cases lookupEvent m x with
  | none => rfl
  | some st => by_cases hx : x = e <;> simp [hx]

theorem lookupEvent_update_isSome (m : ChargingManager) (e x : String) (c : JsVal) :
    (lookupEvent (updateChargeCountInState m e c) x).isSome = (lookupEvent m x).isSome := by
  rw [lookupEvent_update]
  cases lookupEvent m x <;> simp

theorem update_keys (m : ChargingManager) (e : String) (c : JsVal) :
    (updateChargeCountInState m e c).chargeState.map Prod.fst
      = m.chargeState.map Prod.fst := by
  unfold updateChargeCountInState
  simp only [List.map_map]
  apply List.map_congr_left
  intro en _
  simp only [Function.comp_apply]
  split_ifs <;> rfl

theorem update_length (m : ChargingManager) (e : String) (c : JsVal) :
    (updateChargeCountInState m e c).chargeState.length = m.chargeState.length := by
  simp [updateChargeCountInState]

theorem update_max (m : ChargingManager) (e : String) (c : JsVal) :
    (updateChargeCountInState m e c).maxTotalChargeUsd = m.maxTotalChargeUsd := rfl

theorem lookup_split (l : List (String × EventState)) (x : String) (st : EventState)
    (h : (l.find? (fun en => en.1 == x)).map Prod.snd = some st) :
    ∃ l₁ l₂, l = l₁ ++ (x, st) :: l₂ ∧ ∀ en ∈ l₁, (en.1 = x) → False := by
  induction l with
  | nil => simp at h
  | cons en t ih =>
      by_cases hx : en.1 = x
      · rw [List.find?_cons, show (en.1 == x) = true by simpa using hx] at h
        have hst : en.2 = st := by simpa using h
        refine ⟨[], t, ?_, by simp⟩
        rw [List.nil_append, ← hx, ← hst]
      · rw [List.find?_cons, show (en.1 == x) = false by simpa using hx] at h
        obtain ⟨l₁, l₂, heq, hnone⟩ := ih h
        refine ⟨en :: l₁, l₂, by rw [List.cons_append, heq], ?_⟩
        intro a ha hax
        rcases List.mem_cons.mp ha with h1 | h1
        · subst h1
          exact hx hax
        · exact hnone a h1 hax

theorem update_chargeState (m : ChargingManager) (e : String) (c : JsVal) :
    (updateChargeCountInState m e c).chargeState
      = m.chargeState.map fun en =>
          if en.1 = e then (en.1, { en.2 with chargeCount := jsAdd en.2.chargeCount c })
          else en := rfl

theorem map_update_of_no_key (l : List (String × EventState)) (e : String) (c : JsVal)
    (h : ∀ en ∈ l, en.1 ≠ e) :
    (l.map fun en =>
      if en.1 = e then (en.1, { en.2 with chargeCount := jsAdd en.2.chargeCount c })
      else en) = l := by
  induction l with
  | nil => rfl
  | cons en t ih =>
      rw [List.map_cons, if_neg (h en (List.mem_cons_self _ _)),
        ih (fun a ha => h a (List.mem_cons_of_mem _ ha))]

theorem update_state_split (m : ChargingManager) (e : String) (st : EventState) (c : JsVal)
    (hnd : (m.chargeState.map Prod.fst).Nodup) (hreg : lookupEvent m e = some st) :
    ∃ l₁ l₂,
      m.chargeState = l₁ ++ (e, st) :: l₂ ∧
      (updateChargeCountInState m e c).chargeState
        = l₁ ++ (e, { st with chargeCount := jsAdd st.chargeCount c }) :: l₂ ∧
      (∀ en ∈ l₁, en.1 ≠ e) ∧ (∀ en ∈ l₂, en.1 ≠ e) := by
  obtain ⟨l₁, l₂, heq, hl₁⟩ := lookup_split m.chargeState e st hreg
  have hl₁' : ∀ en ∈ l₁, en.1 ≠ e := fun en hen hne => hl₁ en hen hne
  have hl₂ : ∀ en ∈ l₂, en.1 ≠ e := by
    rw [heq, List.map_append, List.map_cons] at hnd
    have h2 := hnd.of_append_right
    rw [List.nodup_cons] at h2
    intro en hen hne
    exact h2.1 (List.mem_map.mpr ⟨en, hen, hne⟩)
  refine ⟨l₁, l₂, heq, ?_, hl₁', hl₂⟩
  rw [update_chargeState, heq, List.map_append, List.map_cons,
    map_update_of_no_key l₁ e c hl₁', map_update_of_no_key l₂ e c hl₂, if_pos rfl]

theorem trueSpend_update (m : ChargingManager) (e : String) (st : EventState) (n p cq : ℚ)
    (hnd : (m.chargeState.map Prod.fst).Nodup) (hreg : lookupEvent m e = some st)
    (hn : st.chargeCount = .fin n) (hp : st.eventPriceUsd = .fin p) :
    trueSpend (updateChargeCountInState m e (.fin cq)) = trueSpend m + cq * p := by
  obtain ⟨l₁, l₂, heq, hupd, _, _⟩ := update_state_split m e st (.fin cq) hnd hreg
  unfold trueSpend
  rw [heq, hupd]
  simp only [List.map_append, List.map_cons, List.sum_append, List.sum_cons, hn, hp,
    jsAdd_fin_fin, qOf_fin]
  ring

theorem recordedSpend_update_le (m : ChargingManager) (e : String) (st : EventState)
    (n p cq : ℚ) (hnd : (m.chargeState.map Prod.fst).Nodup)
    (hreg : lookupEvent m e = some st) (hn : st.chargeCount = .fin n)
    (hp : st.eventPriceUsd = .fin p) (hcq : 0 ≤ cq) (hp0 : 0 ≤ p) :
    recordedSpend m ≤ recordedSpend (updateChargeCountInState m e (.fin cq)) := by
  obtain ⟨l₁, l₂, heq, hupd, _, _⟩ := update_state_split m e st (.fin cq) hnd hreg
  unfold recordedSpend
  rw [heq, hupd]
  simp only [List.map_append, List.map_cons, List.sum_append, List.sum_cons, hn, hp,
    jsAdd_fin_fin, qOf_fin]
  have hterm : round4 (n * p) ≤ round4 ((n + cq) * p) :=
    round4_mono (mul_le_mul_of_nonneg_right (by linarith) hp0)
  linarith

theorem entryWF_update {P : ℚ} (m : ChargingManager) (e : String) (cq : ℚ) (hcq : 0 ≤ cq)
    (h : ∀ en ∈ m.chargeState, EntryWF P en) :
    ∀ en ∈ (updateChargeCountInState m e (.fin cq)).chargeState, EntryWF P en := by
  intro en hen
  rw [update_chargeState] at hen
  obtain ⟨a, ha, rfl⟩ := List.mem_map.mp hen
  obtain ⟨hc, hc0, hp, hp0, hpP⟩ := h a ha
  obtain ⟨cn, hcn⟩ := JsVal.isFin_iff.mp hc
  by_cases he : a.1 = e
  · rw [if_pos he]
    refine ⟨?_, ?_, hp, hp0, hpP⟩
    · simp [hcn, JsVal.isFin]
    · rw [hcn] at hc0 ⊢
      simp only [jsAdd_fin_fin, qOf_fin] at *
      linarith
  · rw [if_neg he]
    exact ⟨hc, hc0, hp, hp0, hpP⟩

theorem StateWF.entriesFin {P : ℚ} {m : ChargingManager} (h : StateWF P m) :
    EntriesFin m := fun en hen =>
  ⟨(h.2.2.2 en hen).1, (h.2.2.2 en hen).2.2.1⟩

theorem trueSpend_nonneg {P : ℚ} {m : ChargingManager} (h : StateWF P m) :
    0 ≤ trueSpend m := by
  unfold trueSpend
  apply List.sum_nonneg
  intro q hq
  obtain ⟨en, hen, rfl⟩ := List.mem_map.mp hq
  obtain ⟨_, hc0, _, hp0, _⟩ := h.2.2.2 en hen
  exact mul_nonneg hc0 hp0.le

/-! ### The three paths of `charge` -/

theorem charge_not_registered (home : Bool) (m : ChargingManager) (e : String)
    (rq : JsVal) (md : List Unit) (h : lookupEvent m e = none) :
    charge home m e rq md = ⟨m, [], some ⟨.fin 0, .event_not_registered⟩⟩ := by
  unfold charge
  rw [h]

theorem charge_limit_path (home : Bool) (m : ChargingManager) (e : String)
    (rq : JsVal) (md : List Unit) (st : EventState) (hst : lookupEvent m e = some st)
    (hle : jsLe (countRemainingChargeCount m e) (.fin 0) = true) :
    charge home m e rq md = ⟨m, [], some ⟨.fin 0, .charge_limit_reached⟩⟩ := by
  unfold charge
  rw [hst]
  simp [hle]

theorem charge_success_path (home : Bool) (m : ChargingManager) (e : String)
    (rq : JsVal) (md : List Unit) (st : EventState) (hst : lookupEvent m e = some st)
    (hle : jsLe (countRemainingChargeCount m e) (.fin 0) = false) :
    charge home m e rq md =
      ⟨updateChargeCountInState m e (jsMin rq (countRemainingChargeCount m e)),
       (if home then [Effect.chargeRequest e (jsMin rq (countRemainingChargeCount m e))]
         else []) ++
         [Effect.updateChargeCount e (jsMin rq (countRemainingChargeCount m e)),
          Effect.pushData
            ((List.range (jsLoopIter (jsMin rq (countRemainingChargeCount m e)))).map fun i =>
              ⟨e, st.eventTitle, st.eventPriceUsd, md[i]?⟩),
          Effect.throwUndefinedMethod "hasReachedChargeLimit"],
       none⟩ := by
  unfold charge
  rw [hst]
  simp [hle]

theorem committedCount_eval (home : Bool) (e : String) (cc : JsVal) (rest : List Effect) :
    committedCount ((if home then [Effect.chargeRequest e cc] else []) ++
      Effect.updateChargeCount e cc :: rest) = cc := by
  cases home <;> simp [committedCount, List.findSome?_cons]

theorem lookupEvent_mem (m : ChargingManager) (e : String) (st : EventState)
    (h : lookupEvent m e = some st) : (e, st) ∈ m.chargeState := by
  unfold lookupEvent at h
  cases hfind : m.chargeState.find? (fun en => en.1 == e) with
  | none => rw [hfind] at h; simp at h
  | some en =>
      rw [hfind] at h
      have hx : en.1 = e := by simpa using List.find?_some hfind
      have hmem := List.mem_of_find?_eq_some hfind
      have hst : en.2 = st := by simpa using h
      rw [← hx, ← hst]
      exact hmem

theorem recordedSpend_ge (m : ChargingManager) :
    trueSpend m - m.chargeState.length * tol4 ≤ recordedSpend m := by
  have h := sum_round4_ge
    (m.chargeState.map fun en => qOf en.2.chargeCount * qOf en.2.eventPriceUsd)
  simpa [trueSpend, recordedSpend, List.map_map, Function.comp] using h

theorem charge_step_spec (P : ℚ) (hP : 0 ≤ P) (home : Bool) (m : ChargingManager)
    (e : String) (rq : ℚ) (md : List Unit) (hwf : StateWF P m) (hrq : 0 ≤ rq) :
    StateWF P (charge home m e (.fin rq) md).state ∧
    (charge home m e (.fin rq) md).state.maxTotalChargeUsd = m.maxTotalChargeUsd ∧
    (charge home m e (.fin rq) md).state.chargeState.length = m.chargeState.length ∧
    (∀ x, priceOr0 (charge home m e (.fin rq) md).state x = priceOr0 m x) ∧
    (∀ x, (lookupEvent (charge home m e (.fin rq) md).state x).isSome
        = (lookupEvent m x).isSome) ∧
    recordedSpend m ≤ recordedSpend (charge home m e (.fin rq) md).state ∧
    trueSpend (charge home m e (.fin rq) md).state
      = trueSpend m
        + qOf (committedCount (charge home m e (.fin rq) md).effects) * qOf (priceOr0 m e) ∧
    trueSpend (charge home m e (.fin rq) md).state
      ≤ max (trueSpend m)
          (qOf m.maxTotalChargeUsd + tol4 * (m.chargeState.length + 1 + P)) := by
  obtain ⟨hmaxfin, hmx0, hnd, hents⟩ := hwf
  cases hreg : lookupEvent m e with
  | none =>
      rw [charge_not_registered home m e _ md hreg]
      refine ⟨⟨hmaxfin, hmx0, hnd, hents⟩, rfl, rfl, fun x => rfl, fun x => rfl, le_refl _,
        ?_, le_max_left _ _⟩
      simp [committedCount]
  | some st =>
      cases hle : jsLe (countRemainingChargeCount m e) (.fin 0) with
      | true =>
          rw [charge_limit_path home m e _ md st hreg hle]
          refine ⟨⟨hmaxfin, hmx0, hnd, hents⟩, rfl, rfl, fun x => rfl, fun x => rfl, le_refl _,
            ?_, le_max_left _ _⟩
          simp [committedCount]
      | false =>
          obtain ⟨mx, hmx⟩ := JsVal.isFin_iff.mp hmaxfin
          have hmxq : 0 < mx := by rw [hmx] at hmx0; simpa using hmx0
          obtain ⟨hcfin, hc0, hpfin, hp0, hpP⟩ := hents (e, st) (lookupEvent_mem m e st hreg)
          obtain ⟨n, hn⟩ := JsVal.isFin_iff.mp hcfin
          obtain ⟨p, hp⟩ := JsVal.isFin_iff.mp hpfin
          have hn' : st.chargeCount = JsVal.fin n := hn
          have hp' : st.eventPriceUsd = JsVal.fin p := hp
          have hpq : 0 < p := by rw [hp] at hp0; simpa using hp0
          have hpPq : p ≤ P := by rw [hp] at hpP; simpa using hpP
          have hEfin : EntriesFin m := fun en hen =>
            ⟨(hents en hen).1, (hents en hen).2.2.1⟩
          have hrcc := countRemainingChargeCount_eq m mx e st p hEfin hmx hmxq.ne' hreg hp'
            hpq.ne'
          set A : ℚ := ((⌊round4 (round4 (mx - recordedSpend m) / p)⌋ : ℤ) : ℚ) with hA
          have hApos : 0 < A := by
            rw [hrcc] at hle
            simp only [jsLe_fin_fin, decide_eq_false_iff_not, not_le] at hle
            exact hle
          have hA1 : (1 : ℚ) ≤ A := by
            rw [hA] at hApos ⊢
            have hz : (0 : ℤ) < ⌊round4 (round4 (mx - recordedSpend m) / p)⌋ := by
              exact_mod_cast hApos
            exact_mod_cast hz
          rw [charge_success_path home m e _ md st hreg hle]
          rw [hrcc]
          simp only [jsMin_fin_fin]
          set cq : ℚ := min rq A with hcq
          have hcq0 : 0 ≤ cq := le_min hrq (by linarith)
          have hcqA : cq ≤ A := min_le_right _ _
          have hprice : priceOr0 m e = .fin p := by
            unfold priceOr0
            rw [hreg]
            simp [hp']
          refine ⟨?_, update_max m e _, update_length m e _, fun x => priceOr0_update m e x _,
            fun x => lookupEvent_update_isSome m e x _, ?_, ?_, ?_⟩
          · refine ⟨hmaxfin, hmx0, ?_, entryWF_update m e cq hcq0 hents⟩
            rw [update_keys]
            exact hnd
          · exact recordedSpend_update_le m e st n p cq hnd hreg hn' hp' hcq0 hpq.le
          · rw [trueSpend_update m e st n p cq hnd hreg hn' hp', committedCount_eval, hprice]
            simp
          · rw [trueSpend_update m e st n p cq hnd hreg hn' hp']
            have hAle : A ≤ round4 (round4 (mx - recordedSpend m) / p) := Int.floor_le _
            have h2 : round4 (round4 (mx - recordedSpend m) / p)
                ≤ round4 (mx - recordedSpend m) / p + tol4 := round4_le _
            have hrem_le : round4 (mx - recordedSpend m) ≤ mx - recordedSpend m + tol4 :=
              round4_le _
            have hrs : trueSpend m - m.chargeState.length * tol4 ≤ recordedSpend m :=
              recordedSpend_ge m
            have hccp : cq * p ≤ round4 (mx - recordedSpend m) + tol4 * p := by
              have hq1 : cq ≤ round4 (mx - recordedSpend m) / p + tol4 :=
                le_trans hcqA (le_trans hAle h2)
              have hq2 : cq * p ≤ (round4 (mx - recordedSpend m) / p + tol4) * p :=
                mul_le_mul_of_nonneg_right hq1 hpq.le
              calc cq * p ≤ (round4 (mx - recordedSpend m) / p + tol4) * p := hq2
                _ = round4 (mx - recordedSpend m) + tol4 * p := by
                    field_simp
            have htolp : tol4 * p ≤ tol4 * P :=
              mul_le_mul_of_nonneg_left hpPq (by norm_num [tol4])
            have hfinal : trueSpend m + cq * p
                ≤ mx + tol4 * (m.chargeState.length + 1 + P) := by
              have : tol4 * ((m.chargeState.length : ℚ) + 1 + P)
                  = (m.chargeState.length : ℚ) * tol4 + tol4 + tol4 * P := by ring
              rw [this]
              linarith
            rw [hmx]
            refine le_trans ?_ (le_max_right _ _)
            simpa using hfinal

theorem runCalls_spec (P : ℚ) (hP : 0 ≤ P) (home : Bool) :
    ∀ (calls : List CallArgs) (m : ChargingManager), StateWF P m →
      (∀ c ∈ calls, 0 ≤ c.requested) →
      StateWF P (runCalls home m calls).1 ∧
      (runCalls home m calls).1.maxTotalChargeUsd = m.maxTotalChargeUsd ∧
      (runCalls home m calls).1.chargeState.length = m.chargeState.length ∧
      (∀ x, priceOr0 (runCalls home m calls).1 x = priceOr0 m x) ∧
      (∀ x, (lookupEvent (runCalls home m calls).1 x).isSome = (lookupEvent m x).isSome) ∧
      recordedSpend m ≤ recordedSpend (runCalls home m calls).1 ∧
      (runCalls home m calls).2 = trueSpend (runCalls home m calls).1 - trueSpend m ∧
      trueSpend (runCalls home m calls).1
        ≤ max (trueSpend m)
            (qOf m.maxTotalChargeUsd + tol4 * (m.chargeState.length + 1 + P)) := by
  intro calls
  induction calls with
  | nil =>
      intro m hwf _
      exact ⟨hwf, rfl, rfl, fun x => rfl, fun x => rfl, le_refl _, by simp [runCalls],
        le_max_left _ _⟩
  | cons c rest ih =>
      intro m hwf hreq
      obtain ⟨hwf1, hmax1, hlen1, hprice1, hsome1, hrec1, hT1eq, hT1le⟩ :=
        charge_step_spec P hP home m c.event c.requested c.metadata hwf
          (hreq c (List.mem_cons_self _ _))
      obtain ⟨hwf2, hmax2, hlen2, hprice2, hsome2, hrec2, hT2eq, hT2le⟩ :=
        ih (charge home m c.event (.fin c.requested) c.metadata).state hwf1
          (fun a ha => hreq a (List.mem_cons_of_mem _ ha))
      have hrun1 : (runCalls home m (c :: rest)).1
          = (runCalls home (charge home m c.event (.fin c.requested) c.metadata).state rest).1 :=
        rfl
      have hrun2 : (runCalls home m (c :: rest)).2
          = qOf (committedCount (charge home m c.event (.fin c.requested) c.metadata).effects)
              * qOf (priceOr0 m c.event)
            + (runCalls home (charge home m c.event (.fin c.requested) c.metadata).state rest).2 :=
        rfl
      rw [hmax1] at hmax2
      rw [hlen1] at hlen2
      refine ⟨by rw [hrun1]; exact hwf2, by rw [hrun1]; exact hmax2,
        by rw [hrun1]; exact hlen2,
        fun x => by rw [hrun1, hprice2 x, hprice1 x],
        fun x => by rw [hrun1, hsome2 x, hsome1 x],
        by rw [hrun1]; exact le_trans hrec1 hrec2, ?_, ?_⟩
      · rw [hrun2, hrun1, hT2eq]
        linarith
      · rw [hrun1]
        rw [hmax1, hlen1] at hT2le
        calc trueSpend (runCalls home (charge home m c.event (.fin c.requested) c.metadata).state rest).1
            ≤ max (trueSpend (charge home m c.event (.fin c.requested) c.metadata).state)
                (qOf m.maxTotalChargeUsd + tol4 * (m.chargeState.length + 1 + P)) := hT2le
          _ ≤ max (max (trueSpend m)
                (qOf m.maxTotalChargeUsd + tol4 * (m.chargeState.length + 1 + P)))
                (qOf m.maxTotalChargeUsd + tol4 * (m.chargeState.length + 1 + P)) :=
              max_le_max hT1le (le_refl _)
          _ = max (trueSpend m)
                (qOf m.maxTotalChargeUsd + tol4 * (m.chargeState.length + 1 + P)) := by
              rw [max_assoc, max_self]

/-! ### Claim C1 -/

attribute [local semireducible] Rat.add Rat.mul Rat.inv Rat.sub in
/-- C1 counterexample: starting from an initialized ledger with one registered
event priced 1.00004 USD and `maxTotalChargeUsd` 2.00004 USD, two single-unit
charge calls both succeed, committing 2.00008 USD — more than the budget plus
the claimed 1e-6 rounding tolerance.  The sum of the committed charge counts
times the unit price therefore exceeds `maxTotalChargeUsd + 1e-6`. -/
theorem c1_counterexample :
    ¬ ((runCalls false overspendManager overspendCalls).2
        ≤ qOf overspendManager.maxTotalChargeUsd + 1/1000000) := by
  decide

/-- C1 (amended): for every well-formed ledger (finite positive budget,
distinct event keys, finite nonnegative counts, finite unit prices in `(0, P]`)
and every sequence of charge calls with nonnegative requested counts, the sum
over the calls of the committed charge count times the event's unit price
never exceeds `maxTotalChargeUsd + (k + 1 + P)/20000`, where `k` is the number
of registered events — the rounding tolerance is governed by the 4-decimal
rounding the code performs, not by 1e-6. -/
theorem c1_budget_bound (P : ℚ) (home : Bool) (m : ChargingManager)
    (calls : List CallArgs) (hP : 0 ≤ P) (hwf : StateWF P m)
    (hreq : ∀ c ∈ calls, 0 ≤ c.requested) :
    (runCalls home m calls).2
      ≤ qOf m.maxTotalChargeUsd + tol4 * (m.chargeState.length + 1 + P) := by
  obtain ⟨_, _, _, _, _, _, hTeq, hTle⟩ := runCalls_spec P hP home calls m hwf hreq
  have hT0 : 0 ≤ trueSpend m := trueSpend_nonneg hwf
  have hB : 0 ≤ qOf m.maxTotalChargeUsd + tol4 * (m.chargeState.length + 1 + P) := by
    have h1 : 0 < qOf m.maxTotalChargeUsd := hwf.2.1
    have h2 : (0:ℚ) ≤ (m.chargeState.length : ℚ) := Nat.cast_nonneg _
    have h3 : (0:ℚ) ≤ tol4 * (m.chargeState.length + 1 + P) := by
      apply mul_nonneg (by norm_num [tol4])
      linarith
    linarith
  rw [hTeq]
  rcases le_or_lt (trueSpend m)
      (qOf m.maxTotalChargeUsd + tol4 * (m.chargeState.length + 1 + P)) with hc | hc
  · rw [max_eq_right hc] at hTle
    linarith
  · rw [max_eq_left hc.le] at hTle
    linarith

attribute [local semireducible] Rat.add Rat.mul Rat.inv Rat.sub in
/-- Witness for `c1_budget_bound` at scenario A (price 1 USD, budget 5 USD,
one call requesting 10 units). -/
theorem c1_budget_bound_witness :
    StateWF 1 scenarioAManager ∧
    (runCalls false scenarioAManager [⟨"r", 10, List.replicate 10 ()⟩]).2
      ≤ qOf scenarioAManager.maxTotalChargeUsd
        + tol4 * (scenarioAManager.chargeState.length + 1 + 1) :=
  ⟨by decide,
   c1_budget_bound 1 false scenarioAManager [⟨"r", 10, List.replicate 10 ()⟩]
     (by norm_num) (by decide) (by decide)⟩

/-! ### Claim C2 -/

attribute [local semireducible] Rat.add Rat.mul Rat.inv Rat.sub in
/-- C2 counterexample: on a concrete successful charge on the platform, the
trace puts the external notification at index 0 and the in-memory
`chargeCount` update at index 1, so the update does *not* happen before the
notification. -/
theorem c2_counterexample :
    (charge true scenarioAManager "r" (.fin 2) [(), ()]).effects
      = [.chargeRequest "r" (.fin 2), .updateChargeCount "r" (.fin 2),
         .pushData [⟨"r", "t", .fin 1, some ()⟩, ⟨"r", "t", .fin 1, some ()⟩],
         .throwUndefinedMethod "hasReachedChargeLimit"] ∧
    ¬ ((charge true scenarioAManager "r" (.fin 2) [(), ()]).effects.findIdx isUpdateEffect
        < (charge true scenarioAManager "r" (.fin 2) [(), ()]).effects.findIdx
            isChargeRequestEffect) := by
  decide

/-- C2 (amended): in every charge call's effect trace, every external charge
notification strictly precedes every in-memory `chargeCount` update — the
source fires the notification (when running on the platform) *before* line
160's state update, the reverse of the order the claim states. -/
theorem c2_notification_precedes_update (home : Bool) (m : ChargingManager) (e : String)
    (rq : JsVal) (md : List Unit) :
    ∀ (i j : ℕ) (ev : String) (c : JsVal) (ev' : String) (c' : JsVal),
      (charge home m e rq md).effects[i]? = some (.chargeRequest ev c) →
      (charge home m e rq md).effects[j]? = some (.updateChargeCount ev' c') →
      i < j := by
  intro i j ev c ev' c' hi hj
  cases hreg : lookupEvent m e with
  | none =>
      rw [charge_not_registered home m e rq md hreg] at hi
      simp at hi
  | some st =>
      cases hle : jsLe (countRemainingChargeCount m e) (.fin 0) with
      | true =>
          rw [charge_limit_path home m e rq md st hreg hle] at hi
          simp at hi
      | false =>
          rw [charge_success_path home m e rq md st hreg hle] at hi hj
          cases home with
          | false =>
              exfalso
              simp only [Bool.false_eq_true, if_false, List.nil_append] at hi
              rcases i with _ | _ | _ | i <;> simp at hi
          | true =>
              simp only [if_true, List.cons_append, List.nil_append] at hi hj
              have hi0 : i = 0 := by
                rcases i with _ | _ | _ | _ | i <;> simp_all
              have hj1 : j = 1 := by
                rcases j with _ | _ | _ | _ | j <;> simp_all
              omega

attribute [local semireducible] Rat.add Rat.mul Rat.inv Rat.sub in
/-- Witness for `c2_notification_precedes_update` at a concrete successful
charge: the notification sits at index 0, the update at index 1, and the
theorem yields 0 < 1. -/
theorem c2_notification_precedes_update_witness :
    (charge true scenarioAManager "r" (.fin 2) [(), ()]).effects[0]?
      = some (.chargeRequest "r" (.fin 2)) ∧
    (charge true scenarioAManager "r" (.fin 2) [(), ()]).effects[1]?
      = some (.updateChargeCount "r" (.fin 2)) ∧
    (0 : ℕ) < 1 :=
  ⟨by decide, by decide,
   c2_notification_precedes_update true scenarioAManager "r" (.fin 2) [(), ()]
     0 1 "r" (.fin 2) "r" (.fin 2) (by decide) (by decide)⟩

/-! ### Claim C3 -/

attribute [local semireducible] Rat.add Rat.mul Rat.inv Rat.sub in
/-- C3: evidence for the code bug.  At scenario A (price 1 USD, budget 5 USD,
request 10 units on the platform) the clamp works — the state update commits
5 units and 5 records are pushed — but the call returns no `ChargeResult` at
all (the success path falls off the end of `charge` after evaluating the
undefined member `hasReachedChargeLimit`), and the draft's `ChargeResult`
type has no `eventChargeLimitReached` field. -/
theorem c3_success_path_returns_nothing :
    (charge true scenarioAManager "r" (.fin 10) (List.replicate 10 ())).result = none ∧
    lookupEvent (charge true scenarioAManager "r" (.fin 10) (List.replicate 10 ())).state "r"
      = some ⟨.fin 5, .fin 1, "t"⟩ ∧
    (charge true scenarioAManager "r" (.fin 10) (List.replicate 10 ())).effects
      = [.chargeRequest "r" (.fin 5), .updateChargeCount "r" (.fin 5),
         .pushData (List.replicate 5 ⟨"r", "t", .fin 1, some ()⟩),
         .throwUndefinedMethod "hasReachedChargeLimit"] := by
  decide

/-! ### Claim C4 -/

attribute [local semireducible] Rat.add Rat.mul Rat.inv Rat.sub in
/-- C4: evidence for the code bug.  On a registered event whose affordable
unit count is 0 (price 2 USD, budget 5 USD, 2 units already charged), the
call returns `{ chargedCount: 0, outcome: charge_limit_reached }` with the
state entirely unchanged and no side effects — but the returned record
carries no `eventChargeLimitReached` field (the draft's `ChargeResult` does
not declare one), while the claim requires it to be `true`. -/
theorem c4_limit_path_no_mutation :
    jsLe (countRemainingChargeCount exhaustedManager "r") (.fin 0) = true ∧
    charge true exhaustedManager "r" (.fin 1) [()]
      = ⟨exhaustedManager, [], some ⟨.fin 0, .charge_limit_reached⟩⟩ := by
  decide

/-! ### Claim C7 -/

attribute [local semireducible] Rat.add Rat.mul Rat.inv Rat.sub in
/-- C7 counterexample: with one unit of a 0.00003-USD event charged against a
5-USD budget, the code reports a remaining budget of 5 USD (4-decimal
rounding), while rounding the defining formula to 6 decimal places would give
4.99997 USD — the code does not round to 6 places. -/
theorem c7_counterexample :
    remainingGlobalCostUsd tinyPriceManager = .fin 5 ∧
    remainingGlobalCostUsd tinyPriceManager
      ≠ .fin (round6 (qOf tinyPriceManager.maxTotalChargeUsd - trueSpend tinyPriceManager)) := by
  decide

/-- C7 (amended): on a finite state with a truthy budget, the remaining
budget is `maxTotalChargeUsd` minus the per-event subtotals, with each
subtotal and the final difference rounded to **4** decimal places (not 6). -/
theorem c7_rounding_is_4_places (m : ChargingManager) (mx : ℚ) (hE : EntriesFin m)
    (hmx : m.maxTotalChargeUsd = .fin mx) (h0 : mx ≠ 0) :
    remainingGlobalCostUsd m = .fin (round4 (mx - recordedSpend m)) :=
  remainingGlobalCostUsd_eq m mx hE hmx h0

attribute [local semireducible] Rat.add Rat.mul Rat.inv Rat.sub in
/-- Witness for `c7_rounding_is_4_places` on the tiny-price fixture. -/
theorem c7_rounding_is_4_places_witness :
    EntriesFin tinyPriceManager ∧
    remainingGlobalCostUsd tinyPriceManager
      = .fin (round4 (5 - recordedSpend tinyPriceManager)) :=
  ⟨by decide, c7_rounding_is_4_places tinyPriceManager 5 (by decide) (by decide) (by norm_num)⟩

/-! ### Claim C8 -/

attribute [local semireducible] Rat.add Rat.mul Rat.inv Rat.sub in
/-- C8 counterexample: a charge for an event kind absent from the pricing
schedule with 100 metadata entries returns `chargedCount = 0`, not the
full pass-through `chargedCount = 100` the claim states. -/
theorem c8_counterexample :
    (charge true noEventsManager "x" (.fin 100) (List.replicate 100 ())).result
      = some ⟨.fin 0, .event_not_registered⟩ ∧
    JsVal.fin 0 ≠ JsVal.fin 100 := by
  decide

/-- C8 (amended): a charge call for an unregistered event returns
`{ chargedCount: 0, outcome: event_not_registered }` regardless of budget
state, with no state change and no side effects (and no pass-through of the
metadata count). -/
theorem c8_unregistered_returns_zero (home : Bool) (m : ChargingManager) (e : String)
    (rq : JsVal) (md : List Unit) (h : lookupEvent m e = none) :
    charge home m e rq md = ⟨m, [], some ⟨.fin 0, .event_not_registered⟩⟩ :=
  charge_not_registered home m e rq md h

attribute [local semireducible] Rat.add Rat.mul Rat.inv Rat.sub in
/-- Witness for `c8_unregistered_returns_zero` on an empty pricing schedule
with a 100-unit request. -/
theorem c8_unregistered_returns_zero_witness :
    lookupEvent noEventsManager "x" = none ∧
    charge true noEventsManager "x" (.fin 100) (List.replicate 100 ())
      = ⟨noEventsManager, [], some ⟨.fin 0, .event_not_registered⟩⟩ :=
  ⟨by decide,
   c8_unregistered_returns_zero true noEventsManager "x" (.fin 100)
     (List.replicate 100 ()) (by decide)⟩

/-! ### Claim C5 -/

attribute [local semireducible] Rat.add Rat.mul Rat.inv Rat.sub in
/-- C5 counterexample: event "a" (price 2 USD) has exhausted the 4 USD budget,
so its state is EXHAUSTED and further charges for it are refused — but one
charge call on the zero-priced registered sibling "z" divides 0 by 0, stores
`NaN` in the charge state, and from then on the limit check for "a" no longer
triggers: a subsequent charge call for "a" takes the success path instead of
returning `{ chargedCount: 0, outcome: charge_limit_reached }`. -/
theorem c5_counterexample :
    jsLe (countRemainingChargeCount zeroPriceSiblingManager "a") (.fin 0) = true ∧
    jsLe (countRemainingChargeCount
        (charge false zeroPriceSiblingManager "z" (.fin 1) [()]).state "a") (.fin 0)
      = false ∧
    (charge false (charge false zeroPriceSiblingManager "z" (.fin 1) [()]).state "a"
        (.fin 5) [()]).result ≠ some ⟨.fin 0, .charge_limit_reached⟩ := by
  decide

/-- C5 (amended): on a well-formed ledger whose registered events all have
*positive* finite unit prices, exhaustion is monotone: once
`countRemainingChargeCount` for a registered event is ≤ 0, it stays ≤ 0 under
any further sequence of charge calls with nonnegative requested counts, and a
charge call for that event (for any requested count) returns
`{ chargedCount: 0, outcome: charge_limit_reached }` with no state change and
no side effects.  (With a zero-priced registered event the property fails —
see the counterexample.) -/
theorem c5_monotone_exhaustion (P : ℚ) (home : Bool) (m : ChargingManager) (e : String)
    (st : EventState) (hP : 0 ≤ P) (hwf : StateWF P m)
    (hreg : lookupEvent m e = some st)
    (hex : jsLe (countRemainingChargeCount m e) (.fin 0) = true)
    (calls : List CallArgs) (hreq : ∀ c ∈ calls, 0 ≤ c.requested)
    (rq : JsVal) (md : List Unit) :
    jsLe (countRemainingChargeCount (runCalls home m calls).1 e) (.fin 0) = true ∧
    charge home (runCalls home m calls).1 e rq md
      = ⟨(runCalls home m calls).1, [], some ⟨.fin 0, .charge_limit_reached⟩⟩ := by
  obtain ⟨hwf', hmax', hlen', hprice', hsome', hrec', _, _⟩ :=
    runCalls_spec P hP home calls m hwf hreq
  obtain ⟨hmaxfin, hmx0, hnd, hents⟩ := hwf
  obtain ⟨mx, hmx⟩ := JsVal.isFin_iff.mp hmaxfin
  have hmxq : 0 < mx := by rw [hmx] at hmx0; simpa using hmx0
  obtain ⟨hcfin, hc0, hpfin, hp0, hpP⟩ := hents (e, st) (lookupEvent_mem m e st hreg)
  obtain ⟨p, hp⟩ := JsVal.isFin_iff.mp hpfin
  have hp' : st.eventPriceUsd = JsVal.fin p := hp
  have hpq : 0 < p := by rw [hp] at hp0; simpa using hp0
  have hEfin : EntriesFin m := fun en hen => ⟨(hents en hen).1, (hents en hen).2.2.1⟩
  have hrcc := countRemainingChargeCount_eq m mx e st p hEfin hmx hmxq.ne' hreg hp' hpq.ne'
  have hsome : (lookupEvent (runCalls home m calls).1 e).isSome = true := by
    rw [hsome' e, hreg]
    rfl
  obtain ⟨st', hst'⟩ := Option.isSome_iff_exists.mp hsome
  have hp2 : st'.eventPriceUsd = .fin p := by
    have hx := hprice' e
    unfold priceOr0 at hx
    rw [hst', hreg] at hx
    simpa [hp'] using hx
  have hmax2 : (runCalls home m calls).1.maxTotalChargeUsd = .fin mx := by
    rw [hmax', hmx]
  have hEfin' : EntriesFin (runCalls home m calls).1 := hwf'.entriesFin
  have hrcc' := countRemainingChargeCount_eq (runCalls home m calls).1 mx e st' p hEfin'
    hmax2 hmxq.ne' hst' hp2 hpq.ne'
  have hmono : round4 (mx - recordedSpend (runCalls home m calls).1)
      ≤ round4 (mx - recordedSpend m) := round4_mono (by linarith)
  have hdiv : round4 (mx - recordedSpend (runCalls home m calls).1) / p
      ≤ round4 (mx - recordedSpend m) / p := (div_le_div_right hpq).mpr hmono
  have hfloor : ⌊round4 (round4 (mx - recordedSpend (runCalls home m calls).1) / p)⌋
      ≤ ⌊round4 (round4 (mx - recordedSpend m) / p)⌋ :=
    Int.floor_le_floor (round4_mono hdiv)
  have hA0 : ((⌊round4 (round4 (mx - recordedSpend m) / p)⌋ : ℤ) : ℚ) ≤ 0 := by
    rw [hrcc] at hex
    simpa using hex
  have hA0' : ((⌊round4 (round4 (mx - recordedSpend (runCalls home m calls).1) / p)⌋ : ℤ) : ℚ)
      ≤ 0 := by
    have hc : ((⌊round4 (round4 (mx - recordedSpend (runCalls home m calls).1) / p)⌋ : ℤ) : ℚ)
        ≤ ((⌊round4 (round4 (mx - recordedSpend m) / p)⌋ : ℤ) : ℚ) := by
      exact_mod_cast hfloor
    linarith
  have hex' : jsLe (countRemainingChargeCount (runCalls home m calls).1 e) (.fin 0) = true := by
    rw [hrcc']
    simpa using hA0'
  exact ⟨hex', charge_limit_path home (runCalls home m calls).1 e rq md st' hst' hex'⟩

attribute [local semireducible] Rat.add Rat.mul Rat.inv Rat.sub in
/-- Witness for `c5_monotone_exhaustion`: the exhausted 2-USD event stays
exhausted after a further (refused) charge call, which returns the
limit-reached result. -/
theorem c5_monotone_exhaustion_witness :
    StateWF 2 exhaustedManager ∧
    lookupEvent exhaustedManager "r" = some ⟨.fin 2, .fin 2, "t"⟩ ∧
    jsLe (countRemainingChargeCount exhaustedManager "r") (.fin 0) = true ∧
    (jsLe (countRemainingChargeCount
        (runCalls false exhaustedManager [⟨"r", 3, []⟩]).1 "r") (.fin 0) = true ∧
      charge false (runCalls false exhaustedManager [⟨"r", 3, []⟩]).1 "r" (.fin 4) []
        = ⟨(runCalls false exhaustedManager [⟨"r", 3, []⟩]).1, [],
           some ⟨.fin 0, .charge_limit_reached⟩⟩) :=
  ⟨by decide, by decide, by decide,
   c5_monotone_exhaustion 2 false exhaustedManager "r" ⟨.fin 2, .fin 2, "t"⟩
     (by norm_num) (by decide) (by decide) (by decide) [⟨"r", 3, []⟩] (by decide)
     (.fin 4) []⟩

/-! ### Claim C6 -/

theorem find?_map_keyed {α β : Type} (l : List (String × α)) (f : String × α → String × β)
    (hf : ∀ en, (f en).1 = en.1) (id : String) :
    (l.map f).find? (fun en => en.1 == id) = (l.find? (fun en => en.1 == id)).map f := by
  induction l with
  | nil => rfl
  | cons en t ih =>
      rw [List.map_cons, List.find?_cons, List.find?_cons, hf en]
      cases hbeq : (en.1 == id) with
      | true => rfl
      | false => exact ih

theorem find?_of_mem_nodup {α : Type} (l : List (String × α)) (id : String) (a : α)
    (hnd : (l.map Prod.fst).Nodup) (hmem : (id, a) ∈ l) :
    l.find? (fun en => en.1 == id) = some (id, a) := by
  induction l with
  | nil => simp at hmem
  | cons en t ih =>
      rw [List.map_cons, List.nodup_cons] at hnd
      rw [List.find?_cons]
      cases hbeq : (en.1 == id) with
      | true =>
          have hx : en.1 = id := by simpa using hbeq
          rcases List.mem_cons.mp hmem with h1 | h1
          · rw [← h1]
          · exact absurd (hx ▸ List.mem_map.mpr ⟨(id, a), h1, rfl⟩) hnd.1
      | false =>
          have hx : en.1 ≠ id := by simpa using hbeq
          rcases List.mem_cons.mp hmem with h1 | h1
          · exact absurd (congrArg Prod.fst h1.symm) hx
          · exact ih hnd.2 h1

attribute [local semireducible] Rat.add Rat.mul Rat.inv Rat.sub in
/-- C6 counterexample: a run record whose pricing info lists the kind "r" but
whose prior-charge-count map is absent produces an *empty* `ChargeState` —
not one entry per kind listed in the pricing info as the claim states. -/
theorem c6_counterexample :
    pricingOnlyRunInfo.pricingInfo = some [("r", ⟨"t", "d", 1⟩)] ∧
    (initManagerFromRunInfo pricingOnlyRunInfo).chargeState.map Prod.fst ≠ ["r"] := by
  decide

attribute [local semireducible] Rat.add Rat.mul Rat.inv Rat.sub in
/-- C6 (amended): initialization builds exactly one `ChargeState` entry per
event kind listed in the pricing info — seeding each `chargeCount` from the
prior-charge-count map with default 0 when that kind is absent from the map —
only when *both* the pricing info and the prior-charge-count map are present;
when either is absent the `ChargeState` is empty.  Scenario E still holds: a
prior count of 3 on a 1-USD event under a 5-USD budget leaves
`unitsAffordable = 2`. -/
theorem c6_initialization_seeding :
    (∀ (ri : RunInfo) ps cs, ri.pricingInfo = some ps → ri.chargedEventCounts = some cs →
      (initManagerFromRunInfo ri).chargeState.map Prod.fst = ps.map Prod.fst) ∧
    (∀ (ri : RunInfo) ps cs (id : String) (info : PricingEventInfo),
      ri.pricingInfo = some ps → ri.chargedEventCounts = some cs →
      (ps.map Prod.fst).Nodup → (id, info) ∈ ps →
      lookupEvent (initManagerFromRunInfo ri) id
        = some ⟨.fin (((cs.find? (fun c => c.1 == id)).map Prod.snd).getD 0),
                .fin info.eventPriceUsd, info.eventTitle⟩) ∧
    (∀ ri : RunInfo, ri.pricingInfo = none ∨ ri.chargedEventCounts = none →
      (initManagerFromRunInfo ri).chargeState = []) ∧
    countRemainingChargeCount (initManagerFromRunInfo scenarioERunInfo) "r" = .fin 2 := by
  refine ⟨?_, ?_, ?_, by decide⟩
  · intro ri ps cs h1 h2
    unfold initManagerFromRunInfo
    rw [h1, h2]
    simp [List.map_map, Function.comp]
  · intro ri ps cs id info h1 h2 hnd hmem
    unfold lookupEvent initManagerFromRunInfo
    rw [h1, h2]
    simp only
    rw [find?_map_keyed ps
        (fun en =>
          (en.1,
           (⟨JsVal.fin (((cs.find? (fun c => c.1 == en.1)).map Prod.snd).getD 0),
             JsVal.fin en.2.eventPriceUsd, en.2.eventTitle⟩ : EventState)))
        (fun en => rfl) id,
      find?_of_mem_nodup ps id info hnd hmem]
    rfl
  · intro ri h
    rcases h with h | h
    · cases hc : ri.chargedEventCounts <;> simp [initManagerFromRunInfo, h, hc]
    · cases hp : ri.pricingInfo <;> simp [initManagerFromRunInfo, h, hp]

attribute [local semireducible] Rat.add Rat.mul Rat.inv Rat.sub in
/-- Witness for `c6_initialization_seeding` on the scenario E run record. -/
theorem c6_initialization_seeding_witness :
    scenarioERunInfo.pricingInfo = some [("r", ⟨"t", "d", 1⟩)] ∧
    scenarioERunInfo.chargedEventCounts = some [("r", 3)] ∧
    lookupEvent (initManagerFromRunInfo scenarioERunInfo) "r"
      = some ⟨.fin ((([(("r" : String), (3 : ℚ))].find? (fun c => c.1 == "r")).map
            Prod.snd).getD 0),
          .fin 1, "t"⟩ :=
  ⟨rfl, rfl,
   c6_initialization_seeding.2.1 scenarioERunInfo [("r", ⟨"t", "d", 1⟩)] [("r", 3)] "r"
     ⟨"t", "d", 1⟩ rfl rfl (by decide) (by decide)⟩

/-! ### Claim C9 -/

theorem limitLoopPair_nil (m : ChargingManager) (w : JsVal) :
    limitLoopPair m w [] = ([], w) := rfl

theorem limitLoopPair_cons_lt (m : ChargingManager) (w : JsVal) (e : String)
    (rest : List String) (h : jsLt w (priceOr0 m e) = true) :
    limitLoopPair m w (e :: rest) = ([], w) := by
  unfold limitLoopPair
  rw [if_pos h]

theorem limitLoopPair_cons_ge (m : ChargingManager) (w : JsVal) (e : String)
    (rest : List String) (h : jsLt w (priceOr0 m e) = false) :
    limitLoopPair m w (e :: rest)
      = (e :: (limitLoopPair m (jsToFixed4 (jsSub w (priceOr0 m e))) rest).1,
         (limitLoopPair m (jsToFixed4 (jsSub w (priceOr0 m e))) rest).2) := by
  conv_lhs => unfold limitLoopPair
  rw [if_neg (by simp [h])]

theorem limitLoopPair_take (m : ChargingManager) :
    ∀ (evs : List String) (w : JsVal),
      (limitLoopPair m w evs).1 = evs.take (limitLoopPair m w evs).1.length := by
  intro evs
  induction evs with
  | nil => intro w; rfl
  | cons e rest ih =>
      intro w
      cases h : jsLt w (priceOr0 m e) with
      | true => rw [limitLoopPair_cons_lt m w e rest h]; rfl
      | false =>
          rw [limitLoopPair_cons_ge m w e rest h]
          simp only [List.length_cons, List.take_succ_cons]
          rw [← ih (jsToFixed4 (jsSub w (priceOr0 m e)))]

theorem limitLoopPair_stop (m : ChargingManager) :
    ∀ (evs : List String) (w : JsVal) (e' : String),
      evs[(limitLoopPair m w evs).1.length]? = some e' →
      jsLt (limitLoopPair m w evs).2 (priceOr0 m e') = true := by
  intro evs
  induction evs with
  | nil => intro w e' h; simp at h
  | cons e rest ih =>
      intro w e' h
      cases hlt : jsLt w (priceOr0 m e) with
      | true =>
          rw [limitLoopPair_cons_lt m w e rest hlt] at h ⊢
          simp only [List.length_nil, List.getElem?_cons_zero, Option.some.injEq] at h
          rw [← h]
          exact hlt
      | false =>
          rw [limitLoopPair_cons_ge m w e rest hlt] at h ⊢
          simp only [List.length_cons, List.getElem?_cons_succ] at h
          exact ih (jsToFixed4 (jsSub w (priceOr0 m e))) e' h

theorem limitLoopPair_steps (m : ChargingManager) :
    ∀ (evs : List String) (w : JsVal) (i : ℕ) (e' : String),
      i < (limitLoopPair m w evs).1.length → evs[i]? = some e' →
      jsLt (limitLoopPair m w (evs.take i)).2 (priceOr0 m e') = false := by
  intro evs
  induction evs with
  | nil => intro w i e' hi h; simp [limitLoopPair] at hi
  | cons e rest ih =>
      intro w i e' hi h
      cases hlt : jsLt w (priceOr0 m e) with
      | true =>
          rw [limitLoopPair_cons_lt m w e rest hlt] at hi
          simp at hi
      | false =>
          rw [limitLoopPair_cons_ge m w e rest hlt] at hi
          cases i with
          | zero =>
              have he : e = e' := by simpa using h
              rw [List.take_zero, limitLoopPair_nil, ← he]
              exact hlt
          | succ i =>
              simp only [List.length_cons, Nat.succ_lt_succ_iff] at hi
              simp only [List.getElem?_cons_succ] at h
              rw [List.take_succ_cons, limitLoopPair_cons_ge m w e (rest.take i) hlt]
              exact ih (jsToFixed4 (jsSub w (priceOr0 m e))) i e' hi h

theorem limitLoopPair_budget (m : ChargingManager) :
    ∀ (evs : List String) (q : ℚ), 0 ≤ q →
      (∀ e ∈ evs, (priceOr0 m e).isFin = true ∧ 0 ≤ qOf (priceOr0 m e)) →
      ∃ wn : ℚ, (limitLoopPair m (.fin q) evs).2 = .fin wn ∧ 0 ≤ wn := by
  intro evs
  induction evs with
  | nil => intro q hq _; exact ⟨q, rfl, hq⟩
  | cons e rest ih =>
      intro q hq hpr
      obtain ⟨hfin, hge⟩ := hpr e (List.mem_cons_self _ _)
      obtain ⟨p, hp⟩ := JsVal.isFin_iff.mp hfin
      have hp0 : 0 ≤ p := by rw [hp] at hge; simpa using hge
      cases hlt : jsLt (.fin q) (priceOr0 m e) with
      | true =>
          rw [limitLoopPair_cons_lt m _ e rest hlt]
          exact ⟨q, rfl, hq⟩
      | false =>
          rw [limitLoopPair_cons_ge m _ e rest hlt]
          have hqp : p ≤ q := by
            rw [hp] at hlt
            have hnot : ¬ (q < p) := by simpa [jsLt] using hlt
            linarith
          have hsub : jsToFixed4 (jsSub (.fin q) (priceOr0 m e)) = .fin (round4 (q - p)) := by
            rw [hp]
            simp
          rw [hsub]
          exact ih (round4 (q - p)) (round4_nonneg (by linarith))
            (fun a ha => hpr a (List.mem_cons_of_mem _ ha))

/-- C9: `limitChargeEvents` returns an order-preserving prefix of its input
(never reorders or skips an event); it stops exactly at the first event whose
unit price exceeds the running remaining budget (each earlier event passed the
check against the running budget over the prefix before it); and when the
snapshot taken on entry is a finite nonnegative number and every listed
event's price (`?? 0` for unregistered kinds) is a finite nonnegative number,
the final running budget is still nonnegative, so the cumulative price of the
returned prefix — with each running subtraction rounded to 4 decimal places —
never exceeds the snapshot. -/
theorem c9_limit_prefix_spec (m : ChargingManager) (events : List String)
    (countScheduled : Bool) :
    (∃ t, limitChargeEvents m events countScheduled ++ t = events) ∧
    (∀ (i : ℕ) (e' : String), i < (limitChargeEvents m events countScheduled).length →
      events[i]? = some e' →
      jsLt (limitLoopPair m (limitSnapshot m countScheduled) (events.take i)).2
        (priceOr0 m e') = false) ∧
    (∀ e' : String,
      events[(limitChargeEvents m events countScheduled).length]? = some e' →
      jsLt (limitLoopPair m (limitSnapshot m countScheduled) events).2 (priceOr0 m e')
        = true) ∧
    (∀ w₀ : ℚ, limitSnapshot m countScheduled = .fin w₀ → 0 ≤ w₀ →
      (∀ e ∈ events, (priceOr0 m e).isFin = true ∧ 0 ≤ qOf (priceOr0 m e)) →
      ∃ wn : ℚ, (limitLoopPair m (limitSnapshot m countScheduled) events).2 = .fin wn ∧
        0 ≤ wn ∧ w₀ - wn ≤ w₀) := by
  refine ⟨?_, ?_, ?_, ?_⟩
  · refine ⟨events.drop (limitChargeEvents m events countScheduled).length, ?_⟩
    unfold limitChargeEvents
    nth_rewrite 1 [limitLoopPair_take m events (limitSnapshot m countScheduled)]
    exact List.take_append_drop _ _
  · intro i e' hi h
    exact limitLoopPair_steps m events (limitSnapshot m countScheduled) i e' hi h
  · intro e' h
    exact limitLoopPair_stop m events (limitSnapshot m countScheduled) e' h
  · intro w₀ hw hw0 hpr
    rw [hw]
    obtain ⟨wn, h1, h2⟩ := limitLoopPair_budget m events w₀ hw0 hpr
    exact ⟨wn, h1, h2, by linarith⟩

attribute [local semireducible] Rat.add Rat.mul Rat.inv Rat.sub in
/-- Witness for `c9_limit_prefix_spec`: a 2-USD event under a 5-USD budget
lets exactly two of three events through, and the final running budget (1
USD) is nonnegative. -/
theorem c9_limit_prefix_spec_witness :
    limitChargeEvents twoUsdManager ["r", "r", "r"] false = ["r", "r"] ∧
    (∃ t, limitChargeEvents twoUsdManager ["r", "r", "r"] false ++ t = ["r", "r", "r"]) ∧
    (∃ wn : ℚ,
      (limitLoopPair twoUsdManager (limitSnapshot twoUsdManager false) ["r", "r", "r"]).2
        = .fin wn ∧ 0 ≤ wn ∧ 5 - wn ≤ 5) :=
  ⟨by decide, (c9_limit_prefix_spec twoUsdManager ["r", "r", "r"] false).1,
   (c9_limit_prefix_spec twoUsdManager ["r", "r", "r"] false).2.2.2 5 (by decide)
     (by norm_num) (by decide)⟩

/-! ### Claim C10 -/

/-- C10: for a registered event whose `eventPriceUsd` is 0 the affordability
computation divides by zero unguarded.  With a positive finite remaining
budget, `countRemainingChargeCount` is `Infinity`, the limit check never
triggers, and every requested count is charged in full (the stored count
grows by exactly the request).  With the remaining budget exactly 0, the
division 0/0 yields `NaN`, the limit check (`NaN <= 0` is false) does not
trigger, and the charge adds `NaN` to the stored `chargeCount`, corrupting
the in-memory state. -/
theorem c10_zero_price_unguarded (home : Bool) (m : ChargingManager) (e : String)
    (st : EventState) (hreg : lookupEvent m e = some st)
    (hp : st.eventPriceUsd = .fin 0) :
    (∀ r : ℚ, remainingGlobalCostUsd m = .fin r → 0 < r →
      countRemainingChargeCount m e = .inf ∧
      ∀ (rq : ℚ) (md : List Unit),
        (charge home m e (.fin rq) md).result = none ∧
        lookupEvent (charge home m e (.fin rq) md).state e
          = some { st with chargeCount := jsAdd st.chargeCount (.fin rq) }) ∧
    (remainingGlobalCostUsd m = .fin 0 →
      countRemainingChargeCount m e = .nan ∧
      ∀ (rq : ℚ) (md : List Unit),
        (charge home m e (.fin rq) md).result = none ∧
        lookupEvent (charge home m e (.fin rq) md).state e
          = some { st with chargeCount := .nan }) := by
  have hprice : priceOr0 m e = .fin 0 := by
    unfold priceOr0
    rw [hreg]
    simp [hp]
  constructor
  · intro r hrem hr
    have hrcc : countRemainingChargeCount m e = .inf := by
      unfold countRemainingChargeCount
      rw [hrem, hprice]
      simp [jsDiv, hr.ne', hr, jsToFixed4, jsFloor]
    have hle : jsLe (countRemainingChargeCount m e) (.fin 0) = false := by
      rw [hrcc]
      rfl
    refine ⟨hrcc, ?_⟩
    intro rq md
    rw [charge_success_path home m e (.fin rq) md st hreg hle, hrcc]
    refine ⟨rfl, ?_⟩
    have hmin : jsMin (.fin rq) JsVal.inf = .fin rq := rfl
    rw [hmin]
    simp only [lookupEvent_update_self, hreg, Option.map_some']
  · intro hrem0
    have hrcc : countRemainingChargeCount m e = .nan := by
      unfold countRemainingChargeCount
      rw [hrem0, hprice]
      simp [jsDiv, jsToFixed4, jsFloor]
    have hle : jsLe (countRemainingChargeCount m e) (.fin 0) = false := by
      rw [hrcc]
      rfl
    refine ⟨hrcc, ?_⟩
    intro rq md
    rw [charge_success_path home m e (.fin rq) md st hreg hle, hrcc]
    refine ⟨rfl, ?_⟩
    have hmin : jsMin (.fin rq) JsVal.nan = .nan := rfl
    rw [hmin]
    simp only [lookupEvent_update_self, hreg, Option.map_some', jsAdd_nan_right]

attribute [local semireducible] Rat.add Rat.mul Rat.inv Rat.sub in
/-- Witness for `c10_zero_price_unguarded` on both branches: a zero-priced
event with 5 USD of remaining budget is never limited and a 7-unit request is
charged in full; a zero-priced event with remaining budget exactly 0 yields a
`NaN` affordable count and the charge stores `NaN`. -/
theorem c10_zero_price_unguarded_witness :
    remainingGlobalCostUsd zeroPriceRichManager = .fin 5 ∧
    (countRemainingChargeCount zeroPriceRichManager "z" = .inf ∧
      (charge false zeroPriceRichManager "z" (.fin 7) []).result = none ∧
      lookupEvent (charge false zeroPriceRichManager "z" (.fin 7) []).state "z"
        = some ⟨jsAdd (.fin 3) (.fin 7), .fin 0, "t"⟩) ∧
    remainingGlobalCostUsd zeroPriceBrokeManager = .fin 0 ∧
    (countRemainingChargeCount zeroPriceBrokeManager "z" = .nan ∧
      lookupEvent (charge false zeroPriceBrokeManager "z" (.fin 7) []).state "z"
        = some ⟨.nan, .fin 0, "t"⟩) := by
  refine ⟨by decide, ?_, by decide, ?_⟩
  · obtain ⟨h1, h2⟩ := (c10_zero_price_unguarded false zeroPriceRichManager "z"
      ⟨.fin 3, .fin 0, "t"⟩ (by decide) rfl).1 5 (by decide) (by norm_num)
    obtain ⟨h3, h4⟩ := h2 7 []
    exact ⟨h1, h3, h4⟩
  · obtain ⟨h1, h2⟩ := (c10_zero_price_unguarded false zeroPriceBrokeManager "z"
      ⟨.fin 0, .fin 0, "t"⟩ (by decide) rfl).2 (by decide)
    obtain ⟨h3, h4⟩ := h2 7 []
    exact ⟨h1, h4⟩
